import Mathlib

/-!
Verification of the x/rewards minimum-consensus-fee ante decorator
(`x/rewards/ante/min_cons_fee.go`): a shallow embedding of
`MinFeeDecorator.AnteHandle` and `getContractFlatFees`, together with the
cosmos-sdk coin/decimal operations they invoke, and theorems about the
fee-sufficiency decision.
-/

namespace MinConsFee

/-- A cosmos-sdk `Coin`: a denomination and an arbitrary-precision integer
amount (`math.Int`). -/
structure Coin where
  denom : String
  amount : Int
  deriving Repr, DecidableEq

/-- A cosmos-sdk `Coins` value: a list of `Coin`. -/
abbrev Coins := List Coin

/-- Fixed-point decimals (`sdk.Dec`) carry 18 fractional digits; a decimal is
stored as an integer scaled by `10^18`.  The decimals reaching this decorator
(a `DecCoin` amount and a converted `uint64` gas limit) are non-negative by
the sdk `DecCoin` invariant, so the scaled value is modelled as a `Nat`. -/
def decUnit : Nat := 10 ^ 18

/-- A cosmos-sdk `DecCoin`: a denomination and a non-negative decimal amount,
here the scaled integer representation (`amount` = real value × `10^18`). -/
structure DecCoin where
  denom : String
  amount : Nat
  deriving Repr, DecidableEq

/-- sdk `fivePrecision`: half of the scaling unit, `5·10^17`. -/
def fivePrecision : Nat := decUnit / 2

/-- sdk `chopPrecisionAndRound` on a non-negative scaled integer: divide by
`10^18` rounding to the nearest integer; a zero remainder returns the
quotient, a remainder below `fivePrecision` truncates, a remainder above it
rounds up, and a remainder exactly equal to it does banker's rounding —
round to the even quotient (Go: `if quo.Bit(0) == 0 { return quo }` else
`quo + 1`). -/
def chopPrecisionAndRound (x : Nat) : Nat :=
  let quo := x / decUnit
  let rem := x % decUnit
  if rem = 0 then quo
  else if rem < fivePrecision then quo
  else if fivePrecision < rem then quo + 1
  else if quo % 2 = 0 then quo else quo + 1

/-- sdk `Dec.Mul`: multiply the scaled representations and chop the doubled
precision back to 18 digits with `chopPrecisionAndRound`. -/
def decMul (a b : Nat) : Nat :=
  chopPrecisionAndRound (a * b)

/-- sdk `Dec.RoundInt`: round the decimal to the nearest integer using
`chopPrecisionAndRound` (bankers rounding at ties). -/
def decRoundInt (a : Nat) : Nat :=
  chopPrecisionAndRound a

/-- Modelled from the spec: `pkg.NewDecFromUint64` is repository code outside
the sources provided here; per the spec the gas limit enters the product
exactly ("MinFeeExpected = MinGasUnitPrice.amount × GasLimit"), so the
conversion is the exact decimal of the integer: scale by `10^18`. -/
def newDecFromUint64 (n : Nat) : Nat :=
  n * decUnit

/-- A denomination is well-formed (abstraction of the sdk denom regex
`[a-zA-Z][a-zA-Z0-9/:._-]{2,127}`: we keep only the length bounds, which is
all the accumulated-result validation below can observe on the empty or
small sets it is ever applied to). -/
def validDenom (d : String) : Bool :=
  3 ≤ d.length && d.length ≤ 128

/-- Strict ascending order of denominations, as sdk `Coins.Validate` requires
in its multi-coin case. -/
def strictlyAscending : List String → Bool
  | [] => true
  | [_] => true
  | a :: b :: rest => decide (a < b) && strictlyAscending (b :: rest)

/-- sdk `Coins.Validate`: the empty set is valid; otherwise every coin must
have a well-formed denomination and a positive amount, and denominations must
be strictly ascending (hence unique). -/
def coinsValidate (cs : Coins) : Bool :=
  cs.all (fun c => validDenom c.denom && decide (0 < c.amount)) &&
    strictlyAscending (cs.map (fun c => c.denom))

/-- sdk `Coins.Add` for a single added coin (value receiver, value-returning:
the receiver is NOT mutated): merge the coin into the set by denomination and
drop zero amounts. -/
def coinsAddOne (cs : Coins) (c : Coin) : Coins :=
  let merged :=
    if cs.any (fun x => x.denom == c.denom) then
      cs.map (fun x =>
        if x.denom == c.denom then { x with amount := x.amount + c.amount } else x)
    else
      cs ++ [c]
  merged.filter (fun x => decide (x.amount ≠ 0))

/-- The Go loop `for _, fee := range fees { flatfee.Add(fee) }` appearing in
both `AnteHandle` and `getContractFlatFees`: `sdk.Coins.Add` has a value
receiver and returns a fresh `Coins`, and the statement discards that return
value, so the accumulator comes back unchanged. -/
def addLoopDiscarded (flatfee : Coins) (fees : Coins) : Coins :=
  let _results := fees.map (fun fee => coinsAddOne flatfee fee)
  flatfee

/-- sdk `Coins.AmountOf`: the amount recorded for `denom`, zero when the
denomination is absent. -/
def amountOf (cs : Coins) (denom : String) : Int :=
  match cs.find? (fun c => c.denom == denom) with
  | some c => c.amount
  | none => 0

/-- sdk `Coins.IsAnyGTE`: false against an empty comparand; otherwise true
iff some coin's denomination appears in `coinsB` with a nonzero amount not
exceeding that coin's amount. -/
def isAnyGTE (coins coinsB : Coins) : Bool :=
  if coinsB.isEmpty then false
  else
    coins.any (fun coin =>
      decide (amountOf coinsB coin.denom ≤ coin.amount) &&
        !(amountOf coinsB coin.denom == 0))

/-- The message variants `getContractFlatFees` inspects.  A
`wasmTypes.MsgExecuteContract` carries its contract address (bech32 string);
an `authz.MsgExec` carries packed `Any` sub-messages, modelled as the result
of `codec.UnpackAny`: `none` when the codec cannot decode the payload, and
`some m` when it decodes to the message `m` (the sdk codec yields a concrete
message value, so a decodable payload is its decoded tree).  Every other
message variant falls to the switch's default. -/
inductive Msg where
  | executeContract (contract : String)
  | exec (msgs : List (Option Msg))
  | other
  deriving Repr

/-- The environment a check reads: the `RewardsFeeReaderExpected` keeper
(`GetMinConsensusFee`, `GetFlatFee`, both `(value, found)` pairs modelled as
`Option`) and `sdk.AccAddressFromBech32` address parsing (`none` = parse
error). -/
structure Env where
  getMinConsensusFee : Option DecCoin
  getFlatFee : String → Option Coin
  parseAddr : String → Option String

/-- The error kinds the decorator can surface. -/
inductive Err where
  /-- `sdkErrors.ErrTxDecode`: "Tx must be a FeeTx". -/
  | txDecode
  /-- `sdkErrors.ErrInvalidRequest`: "tx gas limit is not set". -/
  | invalidRequest
  /-- the `sdk.AccAddressFromBech32` parse error, returned as-is. -/
  | invalidAddress
  /-- `sdkErrors.ErrUnauthorized`: "error decoding authz messages". -/
  | unauthorized
  /-- a `Coins.Validate` failure on the accumulated flat fees. -/
  | invalidCoins
  /-- `sdkErrors.ErrInsufficientFee`, carrying the tx fees and the minimum. -/
  | insufficientFee (txFees : Coins) (minFee : Coin)
  deriving Repr, DecidableEq

/-- The final `return flatfee, flatfee.Validate()` of `getContractFlatFees`:
callers treat a non-nil validation error as failure. -/
def validateReturn (flatfee : Coins) : Except Err Coins :=
  if coinsValidate flatfee then Except.ok flatfee else Except.error Err.invalidCoins

mutual

/-- The function `MinFeeDecorator.getContractFlatFees`: the switch over the message.
`var flatfee sdk.Coins` starts nil; in the `MsgExecuteContract` case the
address is parsed (propagating the parse error) and a found flat fee is
passed to the discarded `flatfee.Add(fee)`; in the `MsgExec` case each packed
sub-message is unpacked (failure → `ErrUnauthorized`) and recursed into, the
returned fees again fed to discarded `Add` calls; any other variant skips the
switch.  All paths end at `return flatfee, flatfee.Validate()`. -/
def getContractFlatFees (env : Env) (m : Msg) : Except Err Coins :=
  match m with
  | Msg.executeContract contract =>
    let flatfee : Coins := []
    match env.parseAddr contract with
    | none => Except.error Err.invalidAddress
    | some ca =>
      match env.getFlatFee ca with
      | some fee =>
        -- Go: `flatfee.Add(fee)` — result discarded, `flatfee` unchanged.
        let _discarded := coinsAddOne flatfee fee
        validateReturn flatfee
      | none => validateReturn flatfee
  | Msg.exec msgs =>
    match execLoop env msgs [] with
    | Except.error e => Except.error e
    | Except.ok flatfee => validateReturn flatfee
  | Msg.other => validateReturn []

/-- The `for _, v := range msg.Msgs` loop of the `authz.MsgExec` case,
threading the (never actually grown) `flatfee` accumulator. -/
def execLoop (env : Env) (vs : List (Option Msg)) (flatfee : Coins) : Except Err Coins :=
  match vs with
  | [] => Except.ok flatfee
  | v :: rest =>
    match v with
    | none => Except.error Err.unauthorized
    | some wrappedMsg =>
      match getContractFlatFees env wrappedMsg with
      | Except.error e => Except.error e
      | Except.ok fees => execLoop env rest (addLoopDiscarded flatfee fees)

end

/-- A `sdk.FeeTx`: the declared fee (`GetFee`) and gas limit (`GetGas`,
a `uint64`). -/
structure FeeTxData where
  fee : Coins
  gas : Nat
  deriving Repr

/-- A transaction: its messages (`GetMsgs`) and, when the value implements
the `sdk.FeeTx` interface, its fee data (the `tx.(sdk.FeeTx)` type assertion
is `some` exactly then). -/
structure Tx where
  msgs : List Msg
  feeData : Option FeeTxData

/-- The decorator's observable outcome: `proceed` models the
`return next(ctx, tx, simulate)` pass-through, `error` a returned error. -/
inductive Outcome where
  | proceed
  | error (e : Err)
  deriving Repr, DecidableEq

/-- The minimum expected fee amount:
`gasUnitPrice.Amount.Mul(txGasLimit).RoundInt()` with
`txGasLimit = pkg.NewDecFromUint64(feeTx.GetGas())`. -/
def minFeeAmount (priceAmount gas : Nat) : Nat :=
  decRoundInt (decMul priceAmount (newDecFromUint64 gas))

/-- The `for _, m := range tx.GetMsgs()` loop of `AnteHandle`: each message's
flat fees are discovered (any error returned immediately) and fed to the
discarded `flatfee.Add(fee)` calls. -/
def msgsLoop (env : Env) (msgs : List Msg) (flatfee : Coins) : Except Err Coins :=
  match msgs with
  | [] => Except.ok flatfee
  | m :: rest =>
    match getContractFlatFees env m with
    | Except.error e => Except.error e
    | Except.ok fees => msgsLoop env rest (addLoopDiscarded flatfee fees)

/-- The method `MinFeeDecorator.AnteHandle`: skip on simulate; require `sdk.FeeTx`;
skip when the min gas unit price is unset or zero; reject a zero gas limit;
compute the minimum expected fee; run flat-fee discovery over the messages
(errors abort); pass when the expected amount is zero or
`txFees.IsAnyGTE({minFeeExpected})`, otherwise `ErrInsufficientFee`. -/
def anteHandle (env : Env) (tx : Tx) (simulate : Bool) : Outcome :=
  if simulate then Outcome.proceed
  else
    match tx.feeData with
    | none => Outcome.error Err.txDecode
    | some feeTx =>
      match env.getMinConsensusFee with
      | none => Outcome.proceed
      | some gasUnitPrice =>
        if gasUnitPrice.amount = 0 then Outcome.proceed
        else
          let txFees := feeTx.fee
          let txGasLimit := newDecFromUint64 feeTx.gas
          if txGasLimit = 0 then Outcome.error Err.invalidRequest
          else
            let minFeeExpected : Coin :=
              { denom := gasUnitPrice.denom
                amount := (decRoundInt (decMul gasUnitPrice.amount txGasLimit) : Int) }
            match msgsLoop env tx.msgs [] with
            | Except.error e => Outcome.error e
            | Except.ok _flatfee =>
              if minFeeExpected.amount = 0 || isAnyGTE txFees [minFeeExpected] then
                Outcome.proceed
              else
                Outcome.error (Err.insufficientFee txFees minFeeExpected)

mutual

/-- Nesting depth of a message: how many `MsgExec` wrappers the deepest
decodable sub-message sits under.  This is the only quantity bounding the
recursion of `getContractFlatFees` — the source imposes no depth limit. -/
def Msg.depth (m : Msg) : Nat :=
  match m with
  | Msg.executeContract _ => 0
  | Msg.exec msgs => 1 + depthList msgs
  | Msg.other => 0

/-- Maximum nesting depth over a packed sub-message list (undecodable
entries contribute nothing: recursion never enters them). -/
def depthList (vs : List (Option Msg)) : Nat :=
  match vs with
  | [] => 0
  | none :: rest => depthList rest
  | some m :: rest => max (Msg.depth m) (depthList rest)

end

mutual

/-- Discovery (`getContractFlatFees`) with an explicit recursion-depth budget: each
recursive descent into a decoded sub-message consumes one unit of fuel, and
exhausted fuel yields `none`.  This models the unbounded recursion of the
source as a budgeted computation, so that termination can be stated: a
budget exceeding the nesting depth always completes. -/
def getContractFlatFeesFuel (env : Env) (fuel : Nat) (m : Msg) :
    Option (Except Err Coins) :=
  match fuel with
  | 0 => none
  | fuel + 1 =>
    match m with
    | Msg.executeContract contract =>
      let flatfee : Coins := []
      match env.parseAddr contract with
      | none => some (Except.error Err.invalidAddress)
      | some ca =>
        match env.getFlatFee ca with
        | some fee =>
          let _discarded := coinsAddOne flatfee fee
          some (validateReturn flatfee)
        | none => some (validateReturn flatfee)
    | Msg.exec msgs =>
      match execLoopFuel env fuel msgs [] with
      | none => none
      | some (Except.error e) => some (Except.error e)
      | some (Except.ok flatfee) => some (validateReturn flatfee)
    | Msg.other => some (validateReturn [])

/-- The `MsgExec` sub-message loop under a depth budget (the budget is spent
by recursion depth, not by list position). -/
def execLoopFuel (env : Env) (fuel : Nat) (vs : List (Option Msg)) (flatfee : Coins) :
    Option (Except Err Coins) :=
  match vs with
  | [] => some (Except.ok flatfee)
  | v :: rest =>
    match v with
    | none => some (Except.error Err.unauthorized)
    | some wrappedMsg =>
      match getContractFlatFeesFuel env fuel wrappedMsg with
      | none => none
      | some (Except.error e) => some (Except.error e)
      | some (Except.ok fees) => execLoopFuel env fuel rest (addLoopDiscarded flatfee fees)

end

/-- A message whose flat-fee discovery hits an undecodable delegated
sub-message as its first failure: somewhere in the message tree, at any
nesting depth, a `MsgExec` carries — after a prefix of packed entries that
all decode and recurse successfully — either a directly undecodable entry or
a decoded sub-message that itself first-fails this way.  This is the
"contains an undecodable sub-message with no earlier-failing message in
iteration order" situation of the specification. -/
inductive FirstFailUndecodable (env : Env) : Msg → Prop where
  | direct (l1 l2 : List (Option Msg))
      (h : ∀ v ∈ l1, ∃ m c, v = some m ∧ getContractFlatFees env m = Except.ok c) :
      FirstFailUndecodable env (Msg.exec (l1 ++ none :: l2))
  | nested (l1 : List (Option Msg)) (m : Msg) (l2 : List (Option Msg))
      (h : ∀ v ∈ l1, ∃ m c, v = some m ∧ getContractFlatFees env m = Except.ok c)
      (hm : FirstFailUndecodable env m) :
      FirstFailUndecodable env (Msg.exec (l1 ++ some m :: l2))

/-- An environment with no registered minimum price, no flat fees, and a
failing-free address parser; used as a concrete check input. -/
def envEmpty : Env :=
  { getMinConsensusFee := none
    getFlatFee := fun _ => none
    parseAddr := fun s => some s }

/-- An environment with no minimum price but flat fees registered for two
contract addresses. -/
def envFlat : Env :=
  { getMinConsensusFee := none
    getFlatFee := fun a =>
      if a = "contract-a" then some { denom := "uarch", amount := 100 }
      else if a = "contract-b" then some { denom := "uarch", amount := 200 }
      else none
    parseAddr := fun s => some s }

/-- An environment with an active minimum gas-unit price of 1 uarch per gas
unit (scaled: `10^18`), no flat fees, and a failing-free parser. -/
def envPriced : Env :=
  { getMinConsensusFee := some { denom := "uarch", amount := 10 ^ 18 }
    getFlatFee := fun _ => none
    parseAddr := fun s => some s }

/-- An environment whose minimum gas-unit price is 0.0025 uarch
(scaled: `25·10^14`), with no flat fees. -/
def envPrice0025 : Env :=
  { getMinConsensusFee := some { denom := "uarch", amount := 25 * 10 ^ 14 }
    getFlatFee := fun _ => none
    parseAddr := fun s => some s }

/-- A fee-bearing transaction carrying no messages, declared fee 500 uarch,
and gas limit 200000 — the spec's boundary example. -/
def txBoundary : Tx :=
  { msgs := [], feeData := some { fee := [{ denom := "uarch", amount := 500 }], gas := 200000 } }

/-- The conversion `newDecFromUint64` is zero exactly on gas limit zero. -/
theorem newDecFromUint64_eq_zero (n : Nat) : newDecFromUint64 n = 0 ↔ n = 0 := by
  simp [newDecFromUint64, decUnit]

/-- C5: For every transaction and every registry state, invoking the check
with `simulate = true` yields `Proceed`, regardless of the transaction's fee,
gas limit, shape, or message contents. -/
theorem simulate_always_proceeds (env : Env) (tx : Tx) :
    anteHandle env tx true = Outcome.proceed := by
  simp [anteHandle]

/-- C6 counterexample: a transaction without fee-bearing shape checked with
`simulate = true` yields `Proceed`, not the `MalformedTransaction`
(`ErrTxDecode`) failure the claim asserts for both values of the simulate
flag: the simulate short-circuit runs before the `FeeTx` cast. -/
theorem non_fee_tx_simulate_proceeds :
    anteHandle envEmpty { msgs := [], feeData := none } true = Outcome.proceed ∧
      anteHandle envEmpty { msgs := [], feeData := none } true ≠
        Outcome.error Err.txDecode := by
  exact ⟨rfl, by decide⟩

/-- C6 amended: with `simulate = false`, a transaction that does not expose a
fee-bearing shape fails with `MalformedTransaction` (`ErrTxDecode`,
"Tx must be a FeeTx"). -/
theorem non_fee_tx_rejected_when_not_simulating (env : Env) (tx : Tx)
    (h : tx.feeData = none) :
    anteHandle env tx false = Outcome.error Err.txDecode := by
  simp [anteHandle, h]

/-- C6 amended, witness: the concrete non-fee transaction is rejected. -/
theorem non_fee_tx_rejected_witness :
    anteHandle envEmpty { msgs := [], feeData := none } false =
      Outcome.error Err.txDecode :=
  non_fee_tx_rejected_when_not_simulating envEmpty { msgs := [], feeData := none } rfl

/-- C7: with `simulate = false` on a fee-bearing transaction, when the
registry reports the minimum gas-unit price as not found or as found with
zero amount, the outcome is `Proceed` — whatever the gas limit (zero
included) and the messages: the gas-limit check and flat-fee discovery are
never reached. -/
theorem inactive_min_price_proceeds (env : Env) (tx : Tx) (ft : FeeTxData)
    (hft : tx.feeData = some ft)
    (hp : env.getMinConsensusFee = none ∨
      ∃ p, env.getMinConsensusFee = some p ∧ p.amount = 0) :
    anteHandle env tx false = Outcome.proceed := by
  rcases hp with hp | ⟨p, hp, hz⟩
  · simp [anteHandle, hft, hp]
  · simp [anteHandle, hft, hp, hz]

/-- C7 witness: price unset, gas limit zero, and a message with an
undecodable delegated payload — the check still proceeds. -/
theorem inactive_min_price_proceeds_witness :
    anteHandle envEmpty
      { msgs := [Msg.exec [none]], feeData := some { fee := [], gas := 0 } }
      false = Outcome.proceed :=
  inactive_min_price_proceeds envEmpty
    { msgs := [Msg.exec [none]], feeData := some { fee := [], gas := 0 } }
    { fee := [], gas := 0 } rfl (Or.inl rfl)

/-- C8: with `simulate = false`, a fee-bearing transaction, and a found
nonzero minimum gas-unit price, a zero gas limit fails with
`InvalidGasLimit` (`ErrInvalidRequest`, "tx gas limit is not set"). -/
theorem zero_gas_limit_rejected (env : Env) (tx : Tx) (ft : FeeTxData) (p : DecCoin)
    (hft : tx.feeData = some ft) (hp : env.getMinConsensusFee = some p)
    (hpz : p.amount ≠ 0) (hg : ft.gas = 0) :
    anteHandle env tx false = Outcome.error Err.invalidRequest := by
  simp [anteHandle, hft, hp, hpz, hg, newDecFromUint64, decUnit]

/-- C8 witness: active unit price, gas limit zero — rejected. -/
theorem zero_gas_limit_rejected_witness :
    anteHandle envPriced { msgs := [], feeData := some { fee := [], gas := 0 } }
      false = Outcome.error Err.invalidRequest :=
  zero_gas_limit_rejected envPriced
    { msgs := [], feeData := some { fee := [], gas := 0 } }
    { fee := [], gas := 0 } { denom := "uarch", amount := 10 ^ 18 }
    rfl rfl (by decide) rfl

/-- C1, evaluated at the failing input: with flat fees of 100 uarch and
200 uarch registered for the two contracts, discovery on a single
`MsgExecuteContract` and on a `MsgExec` wrapping both returns the EMPTY coin
set with no error — not the registered fee, nor the 300 uarch sum the claim
asserts: every `flatfee.Add(fee)` result is discarded (`sdk.Coins.Add` is
value-returning), so the accumulator never grows. -/
theorem flat_fee_discovery_returns_empty :
    getContractFlatFees envFlat (Msg.executeContract "contract-a") =
      Except.ok [] ∧
    getContractFlatFees envFlat
      (Msg.exec [some (Msg.executeContract "contract-a"),
                 some (Msg.executeContract "contract-b")]) = Except.ok [] ∧
    (Except.ok [] : Except Err Coins) ≠
      Except.ok [{ denom := "uarch", amount := 300 }] := by
  refine ⟨rfl, rfl, by simp⟩

/-- Characterization of the rounding branch structure on a quotient `Q` and
remainder `R < 10^18`: the selected integer lies within half a unit of
`Q + R/10^18`, and when the distance is exactly half a unit (the tie), the
selected integer is even. -/
theorem roundTie_half_even (Q R n : Nat) (hR : R < 10 ^ 18)
    (hn : n = if R = 0 then Q else if R < 5 * 10 ^ 17 then Q
      else if 5 * 10 ^ 17 < R then Q + 1 else if Q % 2 = 0 then Q else Q + 1) :
    |(n : ℚ) - ((Q : ℚ) + (R : ℚ) / (10:ℚ) ^ 18)| ≤ 1 / 2 ∧
    (|(n : ℚ) - ((Q : ℚ) + (R : ℚ) / (10:ℚ) ^ 18)| = 1 / 2 → n % 2 = 0) := by
  have hU : (0:ℚ) < (10:ℚ) ^ 18 := by norm_num
  have hRQ : (R : ℚ) < 10 ^ 18 := by exact_mod_cast hR
  have hR0 : (0:ℚ) ≤ (R : ℚ) / (10:ℚ) ^ 18 := by positivity
  rcases Nat.lt_trichotomy R (5 * 10 ^ 17) with hlt | heq | hgt
  · have hne : n = Q := by
      rw [hn]
      by_cases h0 : R = 0
      · rw [if_pos h0]
      · rw [if_neg h0, if_pos hlt]
    have hlt' : (R : ℚ) < 5 * 10 ^ 17 := by exact_mod_cast hlt
    have habs : |(n : ℚ) - ((Q : ℚ) + (R : ℚ) / (10:ℚ) ^ 18)| =
        (R : ℚ) / (10:ℚ) ^ 18 := by
      rw [hne, show (Q : ℚ) - ((Q : ℚ) + (R : ℚ) / (10:ℚ) ^ 18) =
        -((R : ℚ) / (10:ℚ) ^ 18) by ring, abs_neg, abs_of_nonneg hR0]
    rw [habs]
    constructor
    · rw [div_le_iff₀ hU]
      linarith
    · intro h
      rw [div_eq_iff (ne_of_gt hU)] at h
      linarith
  · have h0 : ¬ R = 0 := by omega
    have hne : n = if Q % 2 = 0 then Q else Q + 1 := by
      rw [hn, if_neg h0, if_neg (by omega), if_neg (by omega)]
    have hhalf : (R : ℚ) / (10:ℚ) ^ 18 = 1 / 2 := by
      have hRq : (R : ℚ) = 5 * 10 ^ 17 := by exact_mod_cast heq
      rw [hRq]
      norm_num
    by_cases hq : Q % 2 = 0
    · rw [hne, if_pos hq, hhalf]
      constructor
      · rw [show (Q : ℚ) - ((Q : ℚ) + 1 / 2) = -(1 / 2 : ℚ) by ring, abs_neg,
          abs_of_nonneg (by norm_num : (0:ℚ) ≤ 1 / 2)]
      · intro _
        exact hq
    · rw [hne, if_neg hq, hhalf]
      constructor
      · rw [show ((Q + 1 : ℕ) : ℚ) - ((Q : ℚ) + 1 / 2) = (1 / 2 : ℚ) by
          push_cast; ring,
          abs_of_nonneg (by norm_num : (0:ℚ) ≤ 1 / 2)]
      · intro _
        omega
  · have h0 : ¬ R = 0 := by omega
    have hne : n = Q + 1 := by
      rw [hn, if_neg h0, if_neg (by omega), if_pos hgt]
    have hgt' : (5 * 10 ^ 17 : ℚ) < (R : ℚ) := by exact_mod_cast hgt
    have hub : (R : ℚ) / (10:ℚ) ^ 18 < 1 := by
      rw [div_lt_one hU]
      exact hRQ
    have hlb : (1:ℚ) / 2 < (R : ℚ) / (10:ℚ) ^ 18 := by
      rw [lt_div_iff₀ hU]
      linarith
    have habs : |(n : ℚ) - ((Q : ℚ) + (R : ℚ) / (10:ℚ) ^ 18)| =
        1 - (R : ℚ) / (10:ℚ) ^ 18 := by
      rw [hne, show ((Q + 1 : ℕ) : ℚ) - ((Q : ℚ) + (R : ℚ) / (10:ℚ) ^ 18) =
        1 - (R : ℚ) / (10:ℚ) ^ 18 by push_cast; ring,
        abs_of_nonneg (by linarith)]
    rw [habs]
    constructor
    · linarith
    · intro h
      exfalso
      linarith

/-- Rounding characterization of `chopPrecisionAndRound`: the result is
within half a unit of the exact quotient `a/10^18`, and a distance of
exactly half a unit (the tie) yields an even result — banker's rounding. -/
theorem chopPrecisionAndRound_half_even (a : Nat) :
    |((chopPrecisionAndRound a : ℚ)) - (a : ℚ) / ((10:ℚ) ^ 18)| ≤ 1 / 2 ∧
    (|((chopPrecisionAndRound a : ℚ)) - (a : ℚ) / ((10:ℚ) ^ 18)| = 1 / 2 →
      chopPrecisionAndRound a % 2 = 0) := by
  have h5 : fivePrecision = 5 * 10 ^ 17 := by norm_num [fivePrecision, decUnit]
  have hchop : chopPrecisionAndRound a =
      if a % 10 ^ 18 = 0 then a / 10 ^ 18
      else if a % 10 ^ 18 < 5 * 10 ^ 17 then a / 10 ^ 18
      else if 5 * 10 ^ 17 < a % 10 ^ 18 then a / 10 ^ 18 + 1
      else if (a / 10 ^ 18) % 2 = 0 then a / 10 ^ 18 else a / 10 ^ 18 + 1 := by
    simp only [chopPrecisionAndRound, decUnit, h5]
  have hqa : (a : ℚ) / (10:ℚ) ^ 18 =
      ((a / 10 ^ 18 : Nat) : ℚ) + ((a % 10 ^ 18 : Nat) : ℚ) / (10:ℚ) ^ 18 := by
    have h := Nat.div_add_mod a (10 ^ 18)
    have hcast : ((10:ℚ) ^ 18) * ((a / 10 ^ 18 : Nat) : ℚ) +
        ((a % 10 ^ 18 : Nat) : ℚ) = (a : ℚ) := by exact_mod_cast h
    rw [← hcast]
    field_simp
    ring
  rw [hqa]
  exact roundTie_half_even (a / 10 ^ 18) (a % 10 ^ 18) (chopPrecisionAndRound a)
    (Nat.mod_lt a (by norm_num)) hchop

/-- The decimal product computed in `AnteHandle` is exact: multiplying the
scaled price by the exact decimal of the gas limit leaves a zero remainder,
so no rounding happens inside `Mul` — only `RoundInt` rounds. -/
theorem decMul_newDec_exact (p gas : Nat) :
    decMul p (newDecFromUint64 gas) = p * gas := by
  have h : p * (gas * decUnit) = p * gas * decUnit := by ring
  simp only [decMul, newDecFromUint64, chopPrecisionAndRound, h, Nat.mul_mod_left,
    Nat.mul_div_cancel _ (show 0 < decUnit by norm_num [decUnit])]
  simp

/-- C3 counterexample: at price 0.5 (scaled `5·10^17`) and gas limit 1 the
code computes minimum fee 0 — sdk `chopPrecisionAndRound` sends the tie 0.5
to the even quotient 0 — while the claim's round-half-up formula gives 1, so
the claimed universal equation fails at this input. -/
theorem min_fee_half_up_counterexample :
    minFeeAmount (5 * 10 ^ 17) 1 = 0 ∧
    ⌊((5 * 10 ^ 17 : ℚ) * 1) / ((10:ℚ) ^ 18) + 1 / 2⌋₊ = 1 ∧
    minFeeAmount (5 * 10 ^ 17) 1 ≠
      ⌊((5 * 10 ^ 17 : ℚ) * 1) / ((10:ℚ) ^ 18) + 1 / 2⌋₊ := by
  have h1 : minFeeAmount (5 * 10 ^ 17) 1 = 0 := by decide
  have h2 : ((5 * 10 ^ 17 : ℚ) * 1) / ((10:ℚ) ^ 18) + 1 / 2 = 1 := by norm_num
  refine ⟨h1, ?_, ?_⟩
  · rw [h2]
    exact Nat.floor_one
  · rw [h1, h2, Nat.floor_one]
    omega

/-- C3 amended: the minimum expected fee amount is the product of the
decimal unit price (scaled value / `10^18`) and the gas limit rounded to the
NEAREST integer — within half a unit of the exact product — with a tie
(distance exactly one half) rounded to the even integer (banker's rounding,
as sdk `Dec.RoundInt` does), not away from zero; the claim's two examples,
price 0.0025 with gas 200000 giving 500 and price 0.000015 with gas 333333
giving 5, involve no tie and hold as stated. -/
theorem min_fee_expected_rounds_half_even :
    (∀ priceAmount gas : Nat,
      |((minFeeAmount priceAmount gas : ℚ)) -
          ((priceAmount : ℚ) * (gas : ℚ)) / ((10:ℚ) ^ 18)| ≤ 1 / 2 ∧
      (|((minFeeAmount priceAmount gas : ℚ)) -
          ((priceAmount : ℚ) * (gas : ℚ)) / ((10:ℚ) ^ 18)| = 1 / 2 →
        minFeeAmount priceAmount gas % 2 = 0)) ∧
    minFeeAmount (25 * 10 ^ 14) 200000 = 500 ∧
    minFeeAmount (15 * 10 ^ 12) 333333 = 5 := by
  refine ⟨fun priceAmount gas => ?_, by decide, by decide⟩
  have h := chopPrecisionAndRound_half_even (priceAmount * gas)
  have hcast : ((priceAmount * gas : ℕ) : ℚ) = (priceAmount : ℚ) * (gas : ℚ) := by
    push_cast
    ring
  rw [hcast] at h
  simpa [minFeeAmount, decRoundInt, decMul_newDec_exact] using h

/-- On a singleton set, `AmountOf` resolves the denomination directly. -/
theorem amountOf_singleton (m : Coin) (d : String) :
    amountOf [m] d = if m.denom = d then m.amount else 0 := by
  by_cases h : m.denom = d
  · simp [amountOf, List.find?, h]
  · have hb : (m.denom == d) = false := by simpa using h
    simp [amountOf, List.find?, hb, h]

/-- Against a singleton with nonzero amount, `IsAnyGTE` holds exactly when
some coin of that denomination reaches the singleton's amount. -/
theorem isAnyGTE_singleton (cs : Coins) (m : Coin) (hm : m.amount ≠ 0) :
    (isAnyGTE cs [m] = true) ↔
      ∃ c ∈ cs, c.denom = m.denom ∧ m.amount ≤ c.amount := by
  rw [isAnyGTE, if_neg (by simp), List.any_eq_true]
  constructor
  · rintro ⟨c, hc, hcond⟩
    rw [amountOf_singleton] at hcond
    by_cases h : m.denom = c.denom
    · rw [if_pos h] at hcond
      simp only [Bool.and_eq_true, decide_eq_true_iff, Bool.not_eq_true',
        beq_eq_false_iff_ne, ne_eq] at hcond
      exact ⟨c, hc, h.symm, hcond.1⟩
    · rw [if_neg h] at hcond
      simp at hcond
  · rintro ⟨c, hc, hd, hle⟩
    refine ⟨c, hc, ?_⟩
    rw [amountOf_singleton, if_pos hd.symm]
    simp only [Bool.and_eq_true, decide_eq_true_iff, Bool.not_eq_true',
      beq_eq_false_iff_ne, ne_eq]
    exact ⟨hle, hm⟩

/-- C4: with `simulate = false`, a fee-bearing transaction, an active nonzero
minimum price, a nonzero gas limit, and successful flat-fee discovery, the
outcome is `Proceed` iff the expected minimum amount is zero or the declared
fee has an entry of the minimum's denomination with amount ≥ the minimum
(equality passes); otherwise the outcome is `InsufficientFee` carrying the
declared fee and the computed minimum. -/
theorem fee_sufficiency_boundary (env : Env) (tx : Tx) (ft : FeeTxData) (p : DecCoin)
    (hft : tx.feeData = some ft) (hp : env.getMinConsensusFee = some p)
    (hpz : p.amount ≠ 0) (hg : ft.gas ≠ 0) (c : Coins)
    (hd : msgsLoop env tx.msgs [] = Except.ok c) :
    (anteHandle env tx false = Outcome.proceed ↔
      minFeeAmount p.amount ft.gas = 0 ∨
        ∃ coin ∈ ft.fee, coin.denom = p.denom ∧
          (minFeeAmount p.amount ft.gas : Int) ≤ coin.amount) ∧
    (anteHandle env tx false ≠ Outcome.proceed →
      anteHandle env tx false =
        Outcome.error (Err.insufficientFee ft.fee
          { denom := p.denom, amount := (minFeeAmount p.amount ft.gas : Int) })) := by
  have hgas : ¬ newDecFromUint64 ft.gas = 0 := by
    rw [newDecFromUint64_eq_zero]; exact hg
  have key : anteHandle env tx false =
      if (decide ((minFeeAmount p.amount ft.gas : Int) = 0) ||
          isAnyGTE ft.fee
            [{ denom := p.denom, amount := (minFeeAmount p.amount ft.gas : Int) }]) = true then
        Outcome.proceed
      else
        Outcome.error (Err.insufficientFee ft.fee
          { denom := p.denom, amount := (minFeeAmount p.amount ft.gas : Int) }) := by
    simp only [anteHandle, Bool.false_eq_true, if_false, hft, hp, hd, minFeeAmount]
    rw [if_neg hpz, if_neg hgas]
  have hcond : ((decide ((minFeeAmount p.amount ft.gas : Int) = 0) ||
      isAnyGTE ft.fee
        [{ denom := p.denom, amount := (minFeeAmount p.amount ft.gas : Int) }]) = true) ↔
      (minFeeAmount p.amount ft.gas = 0 ∨
        ∃ coin ∈ ft.fee, coin.denom = p.denom ∧
          (minFeeAmount p.amount ft.gas : Int) ≤ coin.amount) := by
    by_cases h0 : (minFeeAmount p.amount ft.gas : Int) = 0
    · simp only [h0, decide_True, Bool.true_or, true_iff]
      left
      exact_mod_cast h0
    · rw [Bool.or_eq_true, decide_eq_true_iff,
        isAnyGTE_singleton ft.fee _ h0]
      have : ¬ minFeeAmount p.amount ft.gas = 0 := by
        intro hn; exact h0 (by exact_mod_cast hn)
      simp [h0, this]
  constructor
  · rw [key]
    by_cases hb : (decide ((minFeeAmount p.amount ft.gas : Int) = 0) ||
        isAnyGTE ft.fee
          [{ denom := p.denom, amount := (minFeeAmount p.amount ft.gas : Int) }]) = true
    · rw [if_pos hb]
      simpa using hcond.mp hb
    · rw [if_neg hb]
      constructor
      · intro h; cases h
      · intro h; exact absurd (hcond.mpr h) hb
  · rw [key]
    by_cases hb : (decide ((minFeeAmount p.amount ft.gas : Int) = 0) ||
        isAnyGTE ft.fee
          [{ denom := p.denom, amount := (minFeeAmount p.amount ft.gas : Int) }]) = true
    · rw [if_pos hb]; intro h; exact absurd rfl h
    · rw [if_neg hb]; intro _; rfl

/-- C4 witness: declared fee 500 uarch at price 0.0025 and gas 200000
(minimum 500) — the boundary case, instantiating the sufficiency theorem. -/
theorem fee_sufficiency_boundary_witness :
    (anteHandle envPrice0025 txBoundary false = Outcome.proceed ↔
      minFeeAmount (25 * 10 ^ 14) 200000 = 0 ∨
        ∃ coin ∈ [({ denom := "uarch", amount := 500 } : Coin)],
          coin.denom = "uarch" ∧
            (minFeeAmount (25 * 10 ^ 14) 200000 : Int) ≤ coin.amount) ∧
    (anteHandle envPrice0025 txBoundary false ≠ Outcome.proceed →
      anteHandle envPrice0025 txBoundary false =
        Outcome.error (Err.insufficientFee [{ denom := "uarch", amount := 500 }]
          { denom := "uarch", amount := (minFeeAmount (25 * 10 ^ 14) 200000 : Int) })) :=
  fee_sufficiency_boundary envPrice0025 txBoundary
    { fee := [{ denom := "uarch", amount := 500 }], gas := 200000 }
    { denom := "uarch", amount := 25 * 10 ^ 14 }
    rfl rfl (by decide) (by decide) [] rfl

/-- The discarded-`Add` loop returns its accumulator unchanged. -/
theorem addLoopDiscarded_eq (flatfee fees : Coins) :
    addLoopDiscarded flatfee fees = flatfee := rfl

/-- Flat-fee discovery depends on the environment only through address
parsing: every `Add` result is discarded and both flat-fee lookup branches
return the same accumulator, so two environments with the same parser
produce identical discovery results on every message. -/
theorem getContractFlatFees_parse_congr (env1 env2 : Env)
    (hpa : env1.parseAddr = env2.parseAddr) :
    ∀ m : Msg, getContractFlatFees env1 m = getContractFlatFees env2 m := by
  refine Msg.depth.induct
    (fun m => getContractFlatFees env1 m = getContractFlatFees env2 m)
    (fun vs => ∀ acc, execLoop env1 vs acc = execLoop env2 vs acc)
    ?_ ?_ ?_ ?_ ?_ ?_
  · intro a
    simp only [getContractFlatFees, hpa]
    cases env2.parseAddr a with
    | none => rfl
    | some ca =>
      cases h1 : env1.getFlatFee ca <;> cases h2 : env2.getFlatFee ca <;>
        simp [h1, h2]
  · intro vs ih
    simp only [getContractFlatFees, ih []]
  · rfl
  · intro acc; rfl
  · intro rest ih acc; rfl
  · intro m rest ihm ihrest acc
    simp only [execLoop, ihm]
    cases getContractFlatFees env2 m with
    | error e => rfl
    | ok fees => exact ihrest _

/-- The `AnteHandle` message loop is likewise parser-determined. -/
theorem msgsLoop_parse_congr (env1 env2 : Env)
    (hpa : env1.parseAddr = env2.parseAddr) :
    ∀ (msgs : List Msg) (acc : Coins),
      msgsLoop env1 msgs acc = msgsLoop env2 msgs acc := by
  intro msgs
  induction msgs with
  | nil => intro acc; rfl
  | cons m rest ih =>
    intro acc
    simp only [msgsLoop, getContractFlatFees_parse_congr env1 env2 hpa m]
    cases getContractFlatFees env2 m with
    | error e => rfl
    | ok fees => exact ih _

/-- C2: with `simulate = false`, a fee-bearing transaction, an active nonzero
minimum price, and successful flat-fee discovery, the decision reads only the
declared fee, the gas limit, and the minimum gas-unit price: the computed
flat-fee total is never added to the expected minimum, so two registry
states differing only in their flat-fee values yield the same outcome. -/
theorem decision_independent_of_flat_fees (p : DecCoin)
    (parse : String → Option String) (f1 f2 : String → Option Coin)
    (tx : Tx) (ft : FeeTxData) (hft : tx.feeData = some ft) (hpz : p.amount ≠ 0)
    (hd : ∃ c, msgsLoop
      { getMinConsensusFee := some p, getFlatFee := f1, parseAddr := parse }
      tx.msgs [] = Except.ok c) :
    anteHandle { getMinConsensusFee := some p, getFlatFee := f1, parseAddr := parse }
        tx false =
      anteHandle { getMinConsensusFee := some p, getFlatFee := f2, parseAddr := parse }
        tx false := by
  have hml := msgsLoop_parse_congr
    { getMinConsensusFee := some p, getFlatFee := f1, parseAddr := parse }
    { getMinConsensusFee := some p, getFlatFee := f2, parseAddr := parse }
    rfl tx.msgs []
  simp only [anteHandle, hft, hml]

/-- C2 witness: the same transaction checked against a registry with no flat
fees and against one registering a 100 uarch flat fee for the executed
contract — identical outcomes. -/
theorem decision_independent_of_flat_fees_witness :
    anteHandle
        { getMinConsensusFee := some { denom := "uarch", amount := 10 ^ 18 },
          getFlatFee := fun _ => none, parseAddr := fun s => some s }
        { msgs := [Msg.executeContract "contract-a"],
          feeData := some { fee := [], gas := 5 } } false =
      anteHandle
        { getMinConsensusFee := some { denom := "uarch", amount := 10 ^ 18 },
          getFlatFee := fun a =>
            if a = "contract-a" then some { denom := "uarch", amount := 100 } else none,
          parseAddr := fun s => some s }
        { msgs := [Msg.executeContract "contract-a"],
          feeData := some { fee := [], gas := 5 } } false :=
  decision_independent_of_flat_fees
    { denom := "uarch", amount := 10 ^ 18 } (fun s => some s)
    (fun _ => none)
    (fun a => if a = "contract-a" then some { denom := "uarch", amount := 100 } else none)
    { msgs := [Msg.executeContract "contract-a"],
      feeData := some { fee := [], gas := 5 } }
    { fee := [], gas := 5 } rfl (by decide) ⟨[], rfl⟩

/-- Messages whose discovery succeeds never interrupt the `AnteHandle`
message loop: a succeeding prefix can be dropped. -/
theorem msgsLoop_append_ok (env : Env) (pre rest : List Msg)
    (h : ∀ m ∈ pre, ∃ c, getContractFlatFees env m = Except.ok c) (acc : Coins) :
    msgsLoop env (pre ++ rest) acc = msgsLoop env rest acc := by
  induction pre with
  | nil => rfl
  | cons m pre ih =>
    obtain ⟨c, hc⟩ := h m (List.mem_cons_self m pre)
    simp only [List.cons_append, msgsLoop, hc, addLoopDiscarded_eq]
    exact ih fun m hm => h m (List.mem_cons_of_mem _ hm)

/-- Inside a `MsgExec`, once every earlier packed entry decodes and recurses
successfully, an undecodable entry makes the loop fail with
`ErrUnauthorized`. -/
theorem execLoop_reaches_undecodable (env : Env) (l1 l2 : List (Option Msg))
    (h : ∀ v ∈ l1, ∃ m c, v = some m ∧ getContractFlatFees env m = Except.ok c)
    (acc : Coins) :
    execLoop env (l1 ++ none :: l2) acc = Except.error Err.unauthorized := by
  induction l1 generalizing acc with
  | nil => rfl
  | cons v l1 ih =>
    obtain ⟨m, c, hv, hc⟩ := h v (List.mem_cons_self v l1)
    subst hv
    simp only [List.cons_append, execLoop, hc, addLoopDiscarded_eq]
    exact ih (fun v hv => h v (List.mem_cons_of_mem _ hv)) _

/-- A succeeding prefix of packed entries can be dropped from the `MsgExec`
loop (the accumulator never grows, so nothing else changes). -/
theorem execLoop_append_ok (env : Env) (l1 rest : List (Option Msg))
    (h : ∀ v ∈ l1, ∃ m c, v = some m ∧ getContractFlatFees env m = Except.ok c)
    (acc : Coins) :
    execLoop env (l1 ++ rest) acc = execLoop env rest acc := by
  induction l1 generalizing acc with
  | nil => rfl
  | cons v l1 ih =>
    obtain ⟨m, c, hv, hc⟩ := h v (List.mem_cons_self v l1)
    subst hv
    simp only [List.cons_append, execLoop, hc, addLoopDiscarded_eq]
    exact ih (fun v hv => h v (List.mem_cons_of_mem _ hv)) _

/-- Flat-fee discovery on a message that first-fails with an undecodable
delegated sub-message — at any nesting depth — returns `ErrUnauthorized`:
the error produced by the innermost failing `UnpackAny` propagates up
through every enclosing recursion level unchanged. -/
theorem getContractFlatFees_firstFail (env : Env) (m : Msg)
    (h : FirstFailUndecodable env m) :
    getContractFlatFees env m = Except.error Err.unauthorized := by
  induction h with
  | direct l1 l2 hpre =>
    simp only [getContractFlatFees, execLoop_reaches_undecodable env l1 l2 hpre []]
  | nested l1 m l2 hpre hm ih =>
    have hloop : execLoop env (l1 ++ some m :: l2) [] =
        Except.error Err.unauthorized := by
      rw [execLoop_append_ok env l1 (some m :: l2) hpre []]
      simp only [execLoop, ih]
    simp only [getContractFlatFees, hloop]

/-- C9: with `simulate = false`, a fee-bearing transaction, an active nonzero
minimum price, and a nonzero gas limit, a message tree containing — at any
nesting depth — a `MsgExec` with an undecodable sub-message, with no
earlier-failing message in iteration order (earlier top-level messages and
earlier packed entries at every level all succeed), makes the whole check
fail with `UnauthorizedPayload` (`ErrUnauthorized`): the first error aborts
the check, so neither `Proceed` nor `InsufficientFee` is produced. -/
theorem undecodable_delegated_submessage_unauthorized (env : Env) (tx : Tx)
    (ft : FeeTxData) (p : DecCoin)
    (hft : tx.feeData = some ft) (hp : env.getMinConsensusFee = some p)
    (hpz : p.amount ≠ 0) (hg : ft.gas ≠ 0)
    (pre post : List Msg) (m : Msg)
    (hmsgs : tx.msgs = pre ++ m :: post)
    (hpre : ∀ m' ∈ pre, ∃ c, getContractFlatFees env m' = Except.ok c)
    (hm : FirstFailUndecodable env m) :
    anteHandle env tx false = Outcome.error Err.unauthorized := by
  have hgas : ¬ newDecFromUint64 ft.gas = 0 := by
    rw [newDecFromUint64_eq_zero]; exact hg
  have hloop : msgsLoop env tx.msgs [] = Except.error Err.unauthorized := by
    rw [hmsgs, msgsLoop_append_ok env pre _ hpre []]
    simp only [msgsLoop, getContractFlatFees_firstFail env m hm]
  simp only [anteHandle, Bool.false_eq_true, if_false, hft, hp, hloop]
  rw [if_neg hpz, if_neg hgas]

/-- C9 witness: a benign first message, then a `MsgExec` whose second entry
decodes to another `MsgExec` holding an undecodable entry (nesting depth 2)
— the check returns `ErrUnauthorized`. -/
theorem undecodable_delegated_submessage_witness :
    anteHandle envPriced
      { msgs := [Msg.other,
                 Msg.exec [some Msg.other, some (Msg.exec [none]),
                           some (Msg.executeContract "x")]],
        feeData := some { fee := [], gas := 5 } } false =
      Outcome.error Err.unauthorized :=
  undecodable_delegated_submessage_unauthorized envPriced
    { msgs := [Msg.other,
               Msg.exec [some Msg.other, some (Msg.exec [none]),
                         some (Msg.executeContract "x")]],
      feeData := some { fee := [], gas := 5 } }
    { fee := [], gas := 5 } { denom := "uarch", amount := 10 ^ 18 }
    rfl rfl (by decide) (by decide)
    [Msg.other] []
    (Msg.exec [some Msg.other, some (Msg.exec [none]),
               some (Msg.executeContract "x")])
    rfl
    (by
      intro m' hm'
      simp only [List.mem_singleton] at hm'
      subst hm'
      exact ⟨[], rfl⟩)
    (FirstFailUndecodable.nested [some Msg.other] (Msg.exec [none])
      [some (Msg.executeContract "x")]
      (by
        intro v hv
        simp only [List.mem_singleton] at hv
        subst hv
        exact ⟨Msg.other, [], rfl, rfl⟩)
      (FirstFailUndecodable.direct [] []
        (by intro v hv; exact absurd hv (List.not_mem_nil v))))

/-- C10: flat-fee discovery terminates on every message whose decoded
sub-message tree is finite, returning a result or an error: running the same
algorithm under an explicit recursion-depth budget, every budget exceeding
the message's nesting depth completes and agrees with the unbounded
function.  The recursion is thus bounded only by the nesting structure — the
source imposes no depth limit of its own. -/
theorem flat_fee_discovery_depth_bounded (env : Env) :
    ∀ (m : Msg) (fuel : Nat), Msg.depth m < fuel →
      getContractFlatFeesFuel env fuel m = some (getContractFlatFees env m) := by
  refine Msg.depth.induct
    (fun m => ∀ fuel, Msg.depth m < fuel →
      getContractFlatFeesFuel env fuel m = some (getContractFlatFees env m))
    (fun vs => ∀ fuel acc, depthList vs < fuel →
      execLoopFuel env fuel vs acc = some (execLoop env vs acc))
    ?_ ?_ ?_ ?_ ?_ ?_
  · intro a fuel hf
    cases fuel with
    | zero => omega
    | succ k =>
      cases hpa : env.parseAddr a with
      | none => simp [getContractFlatFeesFuel, getContractFlatFees, hpa]
      | some ca =>
        cases hfe : env.getFlatFee ca <;>
          simp [getContractFlatFeesFuel, getContractFlatFees, hpa, hfe]
  · intro vs ih fuel hf
    simp only [Msg.depth] at hf
    cases fuel with
    | zero => omega
    | succ k =>
      have hdl : depthList vs < k := by omega
      have hrec := ih k [] hdl
      cases he : execLoop env vs [] with
      | error e =>
        rw [he] at hrec
        simp [getContractFlatFeesFuel, getContractFlatFees, hrec, he]
      | ok flatfee =>
        rw [he] at hrec
        simp [getContractFlatFeesFuel, getContractFlatFees, hrec, he]
  · intro fuel hf
    cases fuel with
    | zero => omega
    | succ k => rfl
  · intro fuel acc _
    rfl
  · intro rest _ fuel acc _
    rfl
  · intro m rest ihm ihrest fuel acc hf
    simp only [depthList] at hf
    have h1 : Msg.depth m < fuel := by omega
    have h2 : depthList rest < fuel := by omega
    cases hg : getContractFlatFees env m with
    | error e =>
      have hm := ihm fuel h1
      rw [hg] at hm
      simp [execLoopFuel, execLoop, hm, hg]
    | ok fees =>
      have hm := ihm fuel h1
      rw [hg] at hm
      simp only [execLoopFuel, execLoop, hm, hg]
      exact ihrest fuel _ h2

/-- C10 witness: a delegated wrapper of nesting depth 1 completes under any
budget of 2, agreeing with the unbounded discovery. -/
theorem flat_fee_discovery_depth_bounded_witness :
    Msg.depth (Msg.exec [some (Msg.executeContract "contract-a")]) < 2 ∧
    getContractFlatFeesFuel envFlat 2
        (Msg.exec [some (Msg.executeContract "contract-a")]) =
      some (getContractFlatFees envFlat
        (Msg.exec [some (Msg.executeContract "contract-a")])) :=
  ⟨by decide,
    flat_fee_discovery_depth_bounded envFlat
      (Msg.exec [some (Msg.executeContract "contract-a")]) 2 (by decide)⟩

end MinConsFee
